import Mathlib

/-!
Verification of the KubeVela definition-revision resolver
(`pkg/oam/util/helper.go`), shallowly embedded in Lean 4.

Go strings are modelled as `List Char` (the inputs of interest are ASCII, so
`List Char` coincides with the byte view).  Fallible Go functions returning
`(T, error)` are modelled with `GoRes`, which additionally has a `crash`
constructor modelling a Go runtime panic (nil-pointer dereference or
index-out-of-range), since the selection routine can panic on malformed
stored revision names.
-/

abbrev GoString := List Char

/-- A Go `error` value as observed by this code: `apierrors.IsNotFound`
distinguishes not-found from all other failures, and
`checkRequestNamespaceError` inspects the message text. -/
structure GoErr where
  isNotFound : Bool
  msg : GoString
deriving DecidableEq, Repr

/-- Result of running a Go function returning `(α, error)`:
`ok` (error is nil), `err` (non-nil error), or `crash` (runtime panic). -/
inductive GoRes (α : Type) where
  | ok : α → GoRes α
  | err : GoErr → GoRes α
  | crash : GoRes α
deriving DecidableEq, Repr

/-- A stored `DefinitionRevision` object as the resolver observes it:
its `metadata.name` and its `spec.definitionType`.  The same record also
stands for the plain definition objects fetched by `GetDefinition` (the
resolver never looks inside the payload). -/
structure Revision where
  name : GoString
  defType : GoString
deriving DecidableEq, Repr

/-- Decidable equality for `Except` results (used to evaluate the model on
concrete inputs). -/
def exceptDecEq {ε α : Type} [DecidableEq ε] [DecidableEq α] :
    (a b : Except ε α) → Decidable (a = b)
  | .error e, .error f =>
    if h : e = f then .isTrue (by rw [h])
    else .isFalse (fun hh => by cases hh; exact h rfl)
  | .error _, .ok _ => .isFalse (fun hh => by cases hh)
  | .ok _, .error _ => .isFalse (fun hh => by cases hh)
  | .ok a, .ok b =>
    if h : a = b then .isTrue (by rw [h])
    else .isFalse (fun hh => by cases hh; exact h rfl)

instance {ε α : Type} [DecidableEq ε] [DecidableEq α] : DecidableEq (Except ε α) :=
  exceptDecEq

/- ### Go `strings` helpers -/

/-- Worker for `goSplit`: scans left to right accumulating the current
segment in reverse, splitting at each (non-overlapping) occurrence of
`sep`, exactly like Go `strings.Split`.  The `fuel` argument only makes the
recursion structural; any fuel of at least `s.length` gives the scan's
result (see `splitLoopF_fuel`). -/
def splitLoopF (sep : List Char) (fuel : Nat) (s cur : List Char) : List (List Char) :=
  match s with
  | [] => [cur.reverse]
  | c :: rest =>
    match fuel with
    | 0 => [cur.reverse ++ c :: rest]
    | fuel' + 1 =>
      if sep.isPrefixOf (c :: rest) then
        cur.reverse :: splitLoopF sep fuel' (List.drop (sep.length - 1) rest) []
      else
        splitLoopF sep fuel' rest (c :: cur)

/-- Go `strings.Split(s, sep)` for non-empty `sep` (all call sites in the
source pass a non-empty separator, so Go's empty-separator special case is
not needed). -/
def goSplit (s sep : GoString) : List GoString := splitLoopF sep s.length s []

/-- Go `strings.TrimPrefix(s, p)`. -/
def trimPrefixGo (p s : GoString) : GoString :=
  if p.isPrefixOf s then s.drop p.length else s

/-- Go `strings.Join(xs, sep)`. -/
def goJoin (xs : List GoString) (sep : GoString) : GoString :=
  match xs with
  | [] => []
  | x :: rest => rest.foldl (fun acc y => acc ++ sep ++ y) x

/-- Go byte-wise string `<` (inputs are ASCII, so `Char` order agrees). -/
def goStrLT : GoString → GoString → Bool
  | [], [] => false
  | [], _ :: _ => true
  | _ :: _, [] => false
  | a :: s, b :: t => if a < b then true else if b < a then false else goStrLT s t

/- ### `github.com/Masterminds/semver` (v1), as used by the resolver -/

/-- A parsed `semver.Version` (v1).  `strconv.ParseInt` bounds the numeric
segments by `int64`; the `original` field is never consulted by the code
under study and is omitted. -/
structure SemVer where
  major : Nat
  minor : Nat
  patch : Nat
  pre : GoString
  meta : GoString
deriving DecidableEq, Repr

/-- Go `strconv.ParseInt(s, 10, 64)` restricted to the all-digit strings the
semver regex produces: fails (returning nil version upstream) on overflow. -/
def parseIntB (d : List Char) : Option Nat :=
  let n := d.foldl (fun a c => a * 10 + (c.toNat - '0'.toNat)) 0
  if n ≤ 2 ^ 63 - 1 then some n else none

/-- One optional `(\.[0-9]+)?` group of the semver regex: absent (segment
defaults to 0), or a dot followed by one-or-more digits; a dot not followed
by a digit makes the whole regex fail, signalled by `none`. -/
def dotNum : GoString → Option (Nat × GoString)
  | '.' :: t =>
    let d := t.takeWhile Char.isDigit
    let r := t.dropWhile Char.isDigit
    if d.isEmpty then none else (parseIntB d).map (fun n => (n, r))
  | s => some (0, s)

/-- Character class `[0-9A-Za-z-]` of semver pre-release/metadata idents. -/
def isIdentChar (c : Char) : Bool :=
  c.isDigit || ('a' ≤ c && c ≤ 'z') || ('A' ≤ c && c ≤ 'Z') || c = '-'

/-- `ident(\.ident)*` with idents non-empty over `[0-9A-Za-z-]`. -/
def validIdents (s : GoString) : Bool :=
  (goSplit s ['.']).all (fun p => !p.isEmpty && p.all isIdentChar)

/-- `semver.NewVersion` (v1): anchored match of
`v?([0-9]+)(\.[0-9]+)?(\.[0-9]+)?(-pre)?(\+meta)?`; returns `none` exactly
when Go returns a nil `*Version` (regex failure or `ParseInt` overflow). -/
def semverNew (s : GoString) : Option SemVer :=
  let s1 := match s with
    | 'v' :: t => t
    | other => other
  let d1 := s1.takeWhile Char.isDigit
  let r1 := s1.dropWhile Char.isDigit
  if d1.isEmpty then none else
  match parseIntB d1, dotNum r1 with
  | some major, some (minor, r2) =>
    match dotNum r2 with
    | some (patch, r3) =>
      match r3 with
      | [] => some ⟨major, minor, patch, [], []⟩
      | '-' :: t =>
        let pre := t.takeWhile (fun c => c ≠ '+')
        let r4 := t.dropWhile (fun c => c ≠ '+')
        if validIdents pre then
          match r4 with
          | [] => some ⟨major, minor, patch, pre, []⟩
          | '+' :: m =>
            if validIdents m then some ⟨major, minor, patch, pre, m⟩ else none
          | _ => none
        else none
      | '+' :: m =>
        if validIdents m then some ⟨major, minor, patch, [], m⟩ else none
      | _ => none
    | none => none
  | _, _ => none

/-- Decimal rendering of a numeric segment (Go `%d`). -/
def natStr (n : Nat) : GoString := (Nat.repr n).toList

/-- `(*semver.Version).String()` (v1): `major.minor.patch[-pre][+meta]`.
This canonical form is the key of the resolver's `orignalVersions` map. -/
def canonStr (v : SemVer) : GoString :=
  natStr v.major ++ '.' :: natStr v.minor ++ '.' :: natStr v.patch
    ++ (if v.pre.isEmpty then [] else '-' :: v.pre)
    ++ (if v.meta.isEmpty then [] else '+' :: v.meta)

/-- `strconv.ParseInt(s, 10, 64)` on an arbitrary string (optional sign),
used by v1's pre-release part comparison. -/
def parseIntGo (s : GoString) : Option Int :=
  let (sign, ds) : Int × List Char :=
    match s with
    | '-' :: t => (-1, t)
    | '+' :: t => (1, t)
    | t => (1, t)
  if ds.isEmpty || !ds.all Char.isDigit then none
  else
    let n := ds.foldl (fun a c => a * 10 + (c.toNat - '0'.toNat)) 0
    let v : Int := sign * (n : Int)
    if -(2 ^ 63) ≤ v ∧ v ≤ 2 ^ 63 - 1 then some v else none

/-- v1 `comparePrePart`. -/
def prePartCmp (s o : GoString) : Int :=
  if s = o then 0
  else if s.isEmpty then (if !o.isEmpty then -1 else 1)
  else if o.isEmpty then (if !s.isEmpty then 1 else -1)
  else
    match parseIntGo o, parseIntGo s with
    | none, none => if goStrLT o s then 1 else -1
    | none, some _ => -1
    | some _, none => 1
    | some oi, some si => if si > oi then 1 else -1

/-- Tail of v1 `comparePrerelease` when the left side has run out of parts:
remaining right parts are each compared against the empty part. -/
def preCmpPadL : List GoString → Int
  | [] => 0
  | o :: os =>
    let d := prePartCmp [] o
    if d = 0 then preCmpPadL os else d

/-- Tail of v1 `comparePrerelease` when the right side has run out of parts. -/
def preCmpPadR : List GoString → Int
  | [] => 0
  | s :: ss =>
    let d := prePartCmp s []
    if d = 0 then preCmpPadR ss else d

/-- v1 `comparePrerelease` over the dot-separated parts, padding the shorter
side with empty parts. -/
def preCmpParts : List GoString → List GoString → Int
  | [], os => preCmpPadL os
  | s :: ss, [] =>
    let d := prePartCmp s []
    if d = 0 then preCmpPadR ss else d
  | s :: ss, o :: os =>
    let d := prePartCmp s o
    if d = 0 then preCmpParts ss os else d

/-- Numeric segment comparison (`compareSegment`). -/
def segCmp (a b : Nat) : Int := if a < b then -1 else if b < a then 1 else 0

/-- `(*semver.Version).Compare` (v1): major, minor, patch, then pre-release
precedence; build metadata is ignored. -/
def semverCompare (v o : SemVer) : Int :=
  if segCmp v.major o.major ≠ 0 then segCmp v.major o.major
  else if segCmp v.minor o.minor ≠ 0 then segCmp v.minor o.minor
  else if segCmp v.patch o.patch ≠ 0 then segCmp v.patch o.patch
  else if v.pre.isEmpty && o.pre.isEmpty then 0
  else if v.pre.isEmpty then 1
  else if o.pre.isEmpty then -1
  else preCmpParts (goSplit v.pre ['.']) (goSplit o.pre ['.'])

/-- `semver.Collection.Less` = `LessThan` = `Compare < 0`. -/
def semverLess (v o : SemVer) : Prop := semverCompare v o < 0

instance : DecidablePred (fun p : SemVer × SemVer => semverLess p.1 p.2) :=
  fun _ => by unfold semverLess; infer_instance

instance (v o : SemVer) : Decidable (semverLess v o) := by
  unfold semverLess; infer_instance

/-- Ordered insertion w.r.t. `Collection.Less`. -/
def ordIns (a : SemVer) : List SemVer → List SemVer
  | [] => [a]
  | b :: l => if semverLess a b then a :: b :: l else b :: ordIns a l

/-- `sort.Sort(semver.Collection(...))`, ascending in `Compare`.  Go's sort
is an unspecified (unstable) comparison sort: on comparison-ties the order
of equal elements is not defined, and we model it by insertion sort. -/
def insSort : List SemVer → List SemVer
  | [] => []
  | a :: l => ordIns a (insSort l)

/- ### Constants and context -/

/-- Modelled from the spec: the well-known, platform-reserved system
namespace (`oam.SystemDefinitionNamespace`, declared outside `src/`). -/
def SystemDefinitionNamespace : GoString := "vela-system".toList

/-- Modelled from the spec: the auto-update annotation key
(`oam.AnnotationAutoUpdate`, declared outside `src/`); its exact text is
irrelevant, only equality of the looked-up value with `"true"` matters. -/
def AnnotationAutoUpdate : GoString := "app.oam.dev/autoUpdate".toList

/-- Modelled from the spec: `DefinitionKindToNameLabel` maps each definition
kind to the label key under which revisions record their base name (the
`oam.Label*DefinitionName` constants are declared outside `src/`).  A kind
outside the map yields Go's zero value, the empty label. -/
def defKindLabel (t : GoString) : GoString :=
  if t = "ComponentDefinition".toList then "componentdefinition.oam.dev/name".toList
  else if t = "TraitDefinition".toList then "trait.oam.dev/name".toList
  else if t = "PolicyDefinition".toList then "policydefinition.oam.dev/name".toList
  else if t = "WorkflowStepDefinition".toList then "workflowstepdefinition.oam.dev/name".toList
  else []

/-- The ambient `context.Context` as far as the resolver reads it: the two
namespace keys, each either unset (`none`) or carrying a string. -/
structure Ctx where
  appNs : Option GoString
  xNs : Option GoString

/-- `GetDefinitionNamespaceWithCtx`: the `AppDefinitionNamespace` context
value, or the system namespace when the key is unset (an empty string set
in the context is returned as-is). -/
def GetDefinitionNamespaceWithCtx (ctx : Ctx) : GoString :=
  match ctx.appNs with
  | none => SystemDefinitionNamespace
  | some s => s

/-- `GetXDefinitionNamespaceWithCtx`: the `XDefinitionNamespace` context
value when present and non-empty, else the system namespace. -/
def GetXDefinitionNamespaceWithCtx (ctx : Ctx) : GoString :=
  match ctx.xNs with
  | some s => if s.length > 0 then s else SystemDefinitionNamespace
  | none => SystemDefinitionNamespace

/-- The resource-store collaborator (`client.Reader`/`client.Client`):
`get namespace name` fetches one object (namespace `[]` models Go's zero
`types.NamespacedName.Namespace`, i.e. a cluster-scoped request), and
`list namespace labelKey labelValue` lists revisions matching one label. -/
structure StoreCli where
  get : GoString → GoString → Except GoErr Revision
  list : GoString → GoString → GoString → Except GoErr (List Revision)

/-- `checkRequestNamespaceError`: the one exact message of the validation
error produced by a namespace-less request for a namespaced resource. -/
def reqNsMsg : GoString :=
  "an empty namespace may not be set when a resource name is provided".toList

/-- `checkRequestNamespaceError(err)` for a non-nil `err`. -/
def checkRequestNamespaceError (e : GoErr) : Bool := e.msg = reqNsMsg

/- ### Two-tier fetch with legacy fallback -/

/-- `GetDefinitionFromNamespace`: namespaced get; on not-found, one retry
with no namespace (legacy cluster-scope compatibility); if that retry fails
with exactly the request-namespace validation error, the original
not-found error is returned, otherwise the retry's outcome stands. -/
def GetDefinitionFromNamespace (cli : StoreCli) (definitionName ns : GoString) :
    Except GoErr Revision :=
  match cli.get ns definitionName with
  | .ok o => .ok o
  | .error err =>
    if err.isNotFound then
      match cli.get [] definitionName with
      | .ok o => .ok o
      | .error newErr =>
        if checkRequestNamespaceError newErr then .error err else .error newErr
    else .error err

/-- The `for _, ns := range {x, system}` loop body of `GetDefinition`:
`err = GetDefinitionFromNamespace(...); if !IsNotFound(err) { return err }`,
finally returning the last assigned `err`. -/
def getDefinitionLoop (cli : StoreCli) (definitionName : GoString) :
    GoErr → List GoString → Except GoErr Revision
  | e, [] => .error e
  | _, ns :: rest =>
    match GetDefinitionFromNamespace cli definitionName ns with
    | .ok o => .ok o
    | .error e2 =>
      if e2.isNotFound then getDefinitionLoop cli definitionName e2 rest
      else .error e2

/-- `GetDefinition`: direct get in the application namespace; on any
non-not-found error return it; on not-found, try the x-definition namespace
then the system namespace via `GetDefinitionFromNamespace`. -/
def GetDefinition (ctx : Ctx) (cli : StoreCli) (definitionName : GoString) :
    Except GoErr Revision :=
  let appNs := GetDefinitionNamespaceWithCtx ctx
  match cli.get appNs definitionName with
  | .ok o => .ok o
  | .error e =>
    if e.isNotFound then
      getDefinitionLoop cli definitionName e
        [GetXDefinitionNamespaceWithCtx ctx, SystemDefinitionNamespace]
    else .error e

/- ### Reference parsing and name conversion -/

/-- Modelled from the spec: the platform's resource-name validity rules
(`validation.IsQualifiedName` from k8s apimachinery, outside `src/`):
non-empty, bounded length, lowercase alphanumerics with `-` and `.`,
starting and ending alphanumeric.  Returns a list of violation messages,
empty exactly when the name is valid. -/
def IsQualifiedName (s : GoString) : List GoString :=
  (if s.isEmpty then ["name part must be non-empty".toList] else []) ++
  (if s.length > 63 then ["must be no more than 63 characters".toList] else []) ++
  (if s.all (fun c => c.isDigit || c.isLower || c = '-' || c = '.') then []
   else ["name part must consist of lowercase alphanumeric characters, -, or .".toList]) ++
  (if !s.isEmpty &&
      !((s.headI.isDigit || s.headI.isLower) && (s.getLastI.isDigit || s.getLastI.isLower))
   then ["name part must start and end with an alphanumeric character".toList] else [])

/-- The error produced by `errors.Errorf("invalid definitionRevision name %s:%s", x, join(errs, ","))`. -/
def invalidNameErr (x : GoString) (errs : List GoString) : GoErr :=
  ⟨false, "invalid definitionRevision name ".toList ++ x ++ [':'] ++ goJoin errs [',']⟩

/-- `ConvertDefinitionRevName`: split on `"@v"`; with no separator or an
empty left-hand side, validate and return the input; otherwise build
`<base>-v<suffix>`, validate and return it. -/
def ConvertDefinitionRevName (definitionName : GoString) : Except GoErr GoString :=
  let splits := goSplit definitionName ('@' :: ['v'])
  if splits.length = 1 ∨ splits.headI.length = 0 then
    let errs := IsQualifiedName definitionName
    if errs.length ≠ 0 then .error (invalidNameErr definitionName errs)
    else .ok definitionName
  else
    let defName := splits.headI
    let revisionName := trimPrefixGo (defName ++ '@' :: ['v']) definitionName
    let defRevName := defName ++ '-' :: 'v' :: revisionName
    let errs := IsQualifiedName defRevName
    if errs.length ≠ 0 then .error (invalidNameErr defName errs)
    else .ok defRevName

/- ### Version selection -/

/-- Overwriting insertion into the `orignalVersions` Go map. -/
def mapInsert (m : GoString → Option GoString) (k v : GoString) :
    GoString → Option GoString :=
  fun k' => if k' = k then some v else m k'

/-- Closing step of `getMatchingDefinitionRevision`: if no version was
collected return `("", nil)`; else sort, take the last (largest) version
and map its canonical string back to the original suffix (a missing map
key yields Go's zero value, the empty string). -/
def gmdrFinish (definitionName : GoString) (vers : List SemVer)
    (orig : GoString → Option GoString) : GoRes GoString :=
  match (insSort vers).getLast? with
  | none => .ok []
  | some latest => .ok (definitionName ++ '-' :: ((orig (canonStr latest)).getD []))

/-- The candidate loop of `getMatchingDefinitionRevision`.  For each
revision: skip on definition-kind mismatch (unless the requested kind is
empty); return immediately on an exact name match; for a name extending
`exactRevisionName + "."`, split off the suffix after `definitionName + "-"`
(indexing `[1]` panics when absent) and parse it with `semver.NewVersion` —
on parse failure the code dereferences the nil version at
`orignalVersions[v.String()] = version`, a runtime panic, so the subsequent
`if err != nil { return "", err }` is unreachable. -/
def gmdrLoop (exactRevisionName definitionName typ : GoString) :
    List Revision → List SemVer → (GoString → Option GoString) → GoRes GoString
  | [], vers, orig => gmdrFinish definitionName vers orig
  | r :: rest, vers, orig =>
    if typ ≠ [] ∧ typ ≠ r.defType then
      gmdrLoop exactRevisionName definitionName typ rest vers orig
    else if r.name = exactRevisionName then .ok exactRevisionName
    else if (exactRevisionName ++ ['.']).isPrefixOf r.name then
      match (goSplit r.name (definitionName ++ ['-'])).get? 1 with
      | none => .crash
      | some version =>
        match semverNew version with
        | none => .crash
        | some v =>
          gmdrLoop exactRevisionName definitionName typ rest (vers ++ [v])
            (mapInsert orig (canonStr v) version)
    else gmdrLoop exactRevisionName definitionName typ rest vers orig

/-- `getMatchingDefinitionRevision(exactRevisionName, definitionName,
revisionList, definitionType)`. -/
def getMatchingDefinitionRevision (exactRevisionName definitionName : GoString)
    (revisionList : List Revision) (definitionType : GoString) : GoRes GoString :=
  gmdrLoop exactRevisionName definitionName definitionType revisionList [] (fun _ => none)

/- ### Latest-revision lookup -/

/-- `fetchAllRevisionsForDefinitionName`: a namespaced list restricted to
the label `DefinitionKindToNameLabel[definitionType] = definitionName`. -/
def fetchAllRevisionsForDefinitionName (cli : StoreCli) (ns definitionName definitionType : GoString) :
    Except GoErr (List Revision) :=
  cli.list ns (defKindLabel definitionType) definitionName

/-- The final error of `GetLatestDefinitionRevisionName`
(`fmt.Errorf("error finding definition revision for Name: %v, Type: %v", ...)`). -/
def latestNotFoundErr (definitionName definitionType : GoString) : GoErr :=
  ⟨false, "error finding definition revision for Name: ".toList ++ definitionName
      ++ ", Type: ".toList ++ definitionType⟩

/-- The namespace loop of `GetLatestDefinitionRevisionName`: per namespace,
list the revisions (propagating a list error immediately), run the
selection, and return its result only when it produced no error and a
non-empty name (`if err == nil && matched != ""`); otherwise continue. -/
def getLatestLoop (cli : StoreCli) (definitionName revisionName definitionType : GoString) :
    List GoString → GoRes GoString
  | [] => .err (latestNotFoundErr definitionName definitionType)
  | ns :: rest =>
    match fetchAllRevisionsForDefinitionName cli ns definitionName definitionType with
    | .error e => .err e
    | .ok items =>
      match getMatchingDefinitionRevision revisionName definitionName items definitionType with
      | .crash => .crash
      | .err _ => getLatestLoop cli definitionName revisionName definitionType rest
      | .ok m =>
        if m ≠ [] then .ok m
        else getLatestLoop cli definitionName revisionName definitionType rest

/-- `GetLatestDefinitionRevisionName`: search the application namespace then
the system namespace. -/
def GetLatestDefinitionRevisionName (ctx : Ctx) (cli : StoreCli)
    (definitionName revisionName definitionType : GoString) : GoRes GoString :=
  getLatestLoop cli definitionName revisionName definitionType
    [GetDefinitionNamespaceWithCtx ctx, SystemDefinitionNamespace]

/- ### Resolver orchestration -/

/-- `fetchDefinitionRevision`: names without `@` use the live definition;
otherwise convert to a revision name, honour the auto-update annotation by
re-resolving through the latest-lookup, and fetch the revision object via
the two-tier `GetDefinition`. -/
def fetchDefinitionRevision (ctx : Ctx) (cli : StoreCli) (definitionName definitionType : GoString)
    (annotations : GoString → Option GoString) : GoRes (Bool × Option Revision) :=
  if !definitionName.contains '@' then .ok (true, none)
  else
    match ConvertDefinitionRevName definitionName with
    | .error e => .err e
    | .ok defRevName0 =>
      let defName := (goSplit definitionName ['@']).headI
      let resolved : GoRes GoString :=
        match annotations AnnotationAutoUpdate with
        | some v =>
          if v = "true".toList then
            GetLatestDefinitionRevisionName ctx cli defName defRevName0 definitionType
          else .ok defRevName0
        | none => .ok defRevName0
      match resolved with
      | .crash => .crash
      | .err e => .err e
      | .ok defRevName =>
        match GetDefinition ctx cli defRevName with
        | .error e => .err e
        | .ok rev => .ok (false, some rev)

/- ### Concrete stores used to evaluate the claims on specific inputs -/

/-- C3 counterexample store: all three namespaces report (distinct)
not-found errors and the cluster-scoped retry fails with the
request-namespace validation error, the standard situation on a cluster
with namespaced definitions only. -/
def cliC3 : StoreCli where
  get := fun ns _ =>
    if ns = "app-ns".toList then .error ⟨true, "nf-app".toList⟩
    else if ns = "x-ns".toList then .error ⟨true, "nf-x".toList⟩
    else if ns = SystemDefinitionNamespace then .error ⟨true, "nf-sys".toList⟩
    else .error ⟨false, reqNsMsg⟩
  list := fun _ _ _ => .ok []

/-- C4: when a namespace's candidate list contains a revision whose suffix
does not parse, the claim (and §4.4/§7 of the spec) says the selection's
`InvalidVersion` error is propagated immediately to the caller.  The code
cannot do that: selection panics before its error return is reached (see
C1), so the whole latest-lookup crashes — here the application namespace
holds the malformed `app-v1.x` while the system namespace holds a perfect
match `app-v1.5.0` that is never considered.  (Had selection returned a
non-nil error, the loop's `err == nil && matched != ""` guard would have
silently skipped the namespace instead of propagating it.) -/
def cliC4 : StoreCli where
  get := fun _ _ => .error ⟨true, "nf".toList⟩
  list := fun ns _ _ =>
    if ns = "app-ns".toList then
      .ok [⟨"app-v1.x".toList, "ComponentDefinition".toList⟩]
    else
      .ok [⟨"app-v1.5.0".toList, "ComponentDefinition".toList⟩]


/-- C6 counterexample store: the application namespace reports not-found,
a legacy cluster-scoped copy exists (a namespace-less get succeeds), and
the remaining namespaces fail with a non-not-found error. -/
def cliC6 : StoreCli where
  get := fun ns _ =>
    if ns = [] then .ok ⟨"w".toList, "ComponentDefinition".toList⟩
    else if ns = "app-ns".toList then .error ⟨true, "nf-app".toList⟩
    else .error ⟨false, "boom".toList⟩
  list := fun _ _ _ => .ok []

/-- C5 store: the pinned revision `app-v1.2.3` is stored in the
application namespace alongside the newer compatible `app-v1.2.9`. -/
def cliC5 : StoreCli where
  get := fun ns n =>
    if ns = "app-ns".toList ∧ n = "app-v1.2.3".toList then
      .ok ⟨"app-v1.2.3".toList, "ComponentDefinition".toList⟩
    else .error ⟨true, "nf".toList⟩
  list := fun ns _ dn =>
    if ns = "app-ns".toList ∧ dn = "app".toList then
      .ok [⟨"app-v1.2.3".toList, "ComponentDefinition".toList⟩,
           ⟨"app-v1.2.9".toList, "ComponentDefinition".toList⟩]
    else .ok []

/-- C5 annotations: auto-update enabled. -/
def annC5 : GoString → Option GoString :=
  fun k => if k = AnnotationAutoUpdate then some "true".toList else none

/-!
## Properties of the version selector

The candidates that reach the suffix-parsing branch of the loop are those
that pass the kind check and extend `exactRevisionName + "."`; provided no
candidate matches the token exactly, the loop only accumulates their parsed
versions and original suffixes and the result is computed by `gmdrFinish`.
-/

/-- The kind-mismatch skip condition of the candidate loop. -/
def skipRev (typ : GoString) (r : Revision) : Prop := typ ≠ [] ∧ typ ≠ r.defType

instance (typ : GoString) (r : Revision) : Decidable (skipRev typ r) := by
  unfold skipRev; infer_instance

/-- A candidate that survives the kind check and extends the requested
token by a dot: exactly the candidates whose suffix gets parsed (unless an
exact match ends the loop first). -/
def prefCand (exact typ : GoString) (r : Revision) : Bool :=
  !(decide (skipRev typ r)) && (exact ++ ['.']).isPrefixOf r.name

/-- The sublist of candidates reaching the suffix-parsing branch. -/
def prefCands (exact typ : GoString) (items : List Revision) : List Revision :=
  items.filter (prefCand exact typ)

/-- The suffix of a candidate name after `definitionName + "-"`
(`strings.Split(name, definitionName+"-")[1]`, defaulting where Go would
panic on the missing index). -/
def revSuffix (defName : GoString) (r : Revision) : GoString :=
  ((goSplit r.name (defName ++ ['-'])).get? 1).getD []

/-- The parsed version of a candidate's suffix (defaulting where Go's
parse returns nil). -/
def revVer (defName : GoString) (r : Revision) : SemVer :=
  (semverNew (revSuffix defName r)).getD ⟨0, 0, 0, [], []⟩

/-- The suffix index exists and the suffix parses: the loop neither panics
on the index nor on the nil version for this candidate. -/
def goodRev (defName : GoString) (r : Revision) : Prop :=
  ((goSplit r.name (defName ++ ['-'])).get? 1).isSome ∧
    (semverNew (revSuffix defName r)).isSome

instance (defName : GoString) (r : Revision) : Decidable (goodRev defName r) := by
  unfold goodRev; infer_instance

/-- `goodRev`, and the parsed version is a plain numeric one (no
pre-release identifiers, no build metadata). -/
def numGood (defName : GoString) (r : Revision) : Prop :=
  goodRev defName r ∧ (revVer defName r).pre = [] ∧ (revVer defName r).meta = []

instance (defName : GoString) (r : Revision) : Decidable (numGood defName r) := by
  unfold numGood; infer_instance

/-- The `orignalVersions` map accumulated over a candidate list. -/
def buildMap (defName : GoString) (P : List Revision) (m : GoString → Option GoString) :
    GoString → Option GoString :=
  P.foldl (fun acc r => mapInsert acc (canonStr (revVer defName r)) (revSuffix defName r)) m

/-- Lexicographic order on numeric triples. -/
def tripLt (v o : SemVer) : Prop :=
  v.major < o.major ∨
    (v.major = o.major ∧
      (v.minor < o.minor ∨ (v.minor = o.minor ∧ v.patch < o.patch)))

theorem opt_eq_some_getD {α : Type} (o : Option α) (d : α) (h : o.isSome) :
    o = some (o.getD d) := by
  cases o with
  | none => simp at h
  | some a => rfl

/-- With no exact-name candidate and all parsed candidates well-formed, the
loop is the pure accumulation of the parsed-candidate versions and
suffixes, closed by `gmdrFinish`. -/
theorem gmdrLoop_acc (exact defName typ : GoString) (items : List Revision)
    (vers : List SemVer) (orig : GoString → Option GoString)
    (hne : ∀ r ∈ items, ¬ skipRev typ r → r.name ≠ exact)
    (hgood : ∀ r ∈ items, prefCand exact typ r = true → goodRev defName r) :
    gmdrLoop exact defName typ items vers orig =
      gmdrFinish defName (vers ++ (prefCands exact typ items).map (revVer defName))
        (buildMap defName (prefCands exact typ items) orig) := by
  induction items generalizing vers orig with
  | nil => simp [gmdrLoop, prefCands, buildMap]
  | cons r rest ih =>
    have hner := hne r (List.mem_cons_self r rest)
    have hne' : ∀ q ∈ rest, ¬ skipRev typ q → q.name ≠ exact :=
      fun q hq => hne q (List.mem_cons_of_mem r hq)
    have hgood' : ∀ q ∈ rest, prefCand exact typ q = true → goodRev defName q :=
      fun q hq hpq => hgood q (List.mem_cons_of_mem r hq) hpq
    by_cases hs : skipRev typ r
    · have hsk : (typ ≠ [] ∧ typ ≠ r.defType) := hs
      have hpc : prefCand exact typ r = false := by
        simp [prefCand, hs]
      rw [gmdrLoop, if_pos hsk]
      rw [ih vers orig hne' hgood']
      simp [prefCands, List.filter_cons, hpc]
    · have hsk : ¬ (typ ≠ [] ∧ typ ≠ r.defType) := hs
      have hname : r.name ≠ exact := hner hs
      rw [gmdrLoop, if_neg hsk, if_neg hname]
      by_cases hp : (exact ++ ['.']).isPrefixOf r.name
      · have hpc : prefCand exact typ r = true := by
          simp [prefCand, hs, hp]
        have hg : goodRev defName r := hgood r (List.mem_cons_self r rest) hpc
        have h1 : (goSplit r.name (defName ++ ['-'])).get? 1 = some (revSuffix defName r) :=
          opt_eq_some_getD _ _ hg.1
        have h2 : semverNew (revSuffix defName r) = some (revVer defName r) :=
          opt_eq_some_getD _ _ hg.2
        rw [if_pos hp]
        simp only [h1, h2]
        rw [ih (vers ++ [revVer defName r])
            (mapInsert orig (canonStr (revVer defName r)) (revSuffix defName r)) hne' hgood']
        simp only [prefCands, List.filter_cons, hpc, if_true, List.map_cons, buildMap,
          List.foldl_cons]
        simp
      · have hpc : prefCand exact typ r = false := by
          simp [prefCand, hp]
        rw [if_neg hp]
        rw [ih vers orig hne' hgood']
        simp [prefCands, List.filter_cons, hpc]

/-- A kind-matching candidate named exactly like the requested token makes
the loop return that token, provided every candidate reaching the parsing
branch is well-formed (so the loop cannot panic before the match). -/
theorem gmdrLoop_exact (exact defName typ : GoString) (items : List Revision)
    (vers : List SemVer) (orig : GoString → Option GoString)
    (hex : ∃ r ∈ items, ¬ skipRev typ r ∧ r.name = exact)
    (hgood : ∀ r ∈ items, prefCand exact typ r = true → goodRev defName r) :
    gmdrLoop exact defName typ items vers orig = .ok exact := by
  induction items generalizing vers orig with
  | nil => obtain ⟨r, hr, -⟩ := hex; exact absurd hr (List.not_mem_nil r)
  | cons r rest ih =>
    have hgood' : ∀ q ∈ rest, prefCand exact typ q = true → goodRev defName q :=
      fun q hq hpq => hgood q (List.mem_cons_of_mem r hq) hpq
    obtain ⟨w, hw, hwskip, hwname⟩ := hex
    by_cases hs : skipRev typ r
    · have hsk : (typ ≠ [] ∧ typ ≠ r.defType) := hs
      rw [gmdrLoop, if_pos hsk]
      have hwrest : w ∈ rest := by
        rcases List.mem_cons.mp hw with rfl | h
        · exact absurd hs hwskip
        · exact h
      exact ih vers orig ⟨w, hwrest, hwskip, hwname⟩ hgood'
    · have hsk : ¬ (typ ≠ [] ∧ typ ≠ r.defType) := hs
      rw [gmdrLoop, if_neg hsk]
      by_cases hname : r.name = exact
      · rw [if_pos hname]
      · rw [if_neg hname]
        have hwrest : w ∈ rest := by
          rcases List.mem_cons.mp hw with rfl | h
          · exact absurd hwname hname
          · exact h
        by_cases hp : (exact ++ ['.']).isPrefixOf r.name
        · have hpc : prefCand exact typ r = true := by
            simp [prefCand, hs, hp]
          have hg : goodRev defName r := hgood r (List.mem_cons_self r rest) hpc
          have h1 : (goSplit r.name (defName ++ ['-'])).get? 1 = some (revSuffix defName r) :=
            opt_eq_some_getD _ _ hg.1
          have h2 : semverNew (revSuffix defName r) = some (revVer defName r) :=
            opt_eq_some_getD _ _ hg.2
          rw [if_pos hp]
          simp only [h1, h2]
          exact ih _ _ ⟨w, hwrest, hwskip, hwname⟩ hgood'
        · rw [if_neg hp]
          exact ih vers orig ⟨w, hwrest, hwskip, hwname⟩ hgood'

/-!
### The comparator on plain numeric versions

On versions without pre-release identifiers, `Compare` is exactly the
lexicographic order on the `(major, minor, patch)` triple (metadata is
never consulted), which gives the order facts needed about the sort.
-/

theorem semverLess_iff_tripLt (v o : SemVer) (hv : v.pre = []) (ho : o.pre = []) :
    semverLess v o ↔ tripLt v o := by
  unfold semverLess semverCompare segCmp tripLt
  simp only [hv, ho, List.isEmpty_nil, Bool.and_self, if_true]
  split_ifs <;> omega

theorem tripLt_asymm (v o : SemVer) : tripLt v o → ¬ tripLt o v := by
  unfold tripLt; omega

theorem tripLt_trans (a b c : SemVer) : tripLt a b → tripLt b c → tripLt a c := by
  unfold tripLt; omega

theorem tripLt_irrefl (v : SemVer) : ¬ tripLt v v := by
  unfold tripLt; omega

/-- Trichotomy: two plain numeric versions (empty pre-release and metadata)
that are unordered are equal. -/
theorem semver_eq_of_not_tripLt (a b : SemVer)
    (hpa : a.pre = []) (hpb : b.pre = []) (hma : a.meta = []) (hmb : b.meta = [])
    (h1 : ¬ tripLt a b) (h2 : ¬ tripLt b a) : a = b := by
  obtain ⟨a1, a2, a3, ap, am⟩ := a
  obtain ⟨b1, b2, b3, bp, bm⟩ := b
  simp only at hpa hpb hma hmb
  subst hpa hpb hma hmb
  unfold tripLt at h1 h2
  simp only at h1 h2 ⊢
  have : a1 = b1 ∧ a2 = b2 ∧ a3 = b3 := by omega
  simp [this.1, this.2.1, this.2.2]

/- ### The sorted maximum -/

theorem mem_ordIns (a x : SemVer) (l : List SemVer) :
    x ∈ ordIns a l ↔ x = a ∨ x ∈ l := by
  induction l with
  | nil => simp [ordIns]
  | cons b l ih =>
    unfold ordIns
    by_cases h : semverLess a b
    · simp [h]
    · simp [h, ih]
      tauto

theorem ordIns_ne_nil (a : SemVer) (l : List SemVer) : ordIns a l ≠ [] := by
  cases l with
  | nil => simp [ordIns]
  | cons b l =>
    unfold ordIns
    by_cases h : semverLess a b <;> simp [h]

theorem mem_insSort (x : SemVer) (l : List SemVer) : x ∈ insSort l ↔ x ∈ l := by
  induction l with
  | nil => simp [insSort]
  | cons a l ih => simp [insSort, mem_ordIns, ih]

/-- Inserting an element that is the current last, or below it, keeps the
last element. -/
theorem getLast?_ordIns_keep (s : List SemVer) (a M : SemVer)
    (h : s.getLast? = some M) (ha : a = M ∨ semverLess a M) :
    (ordIns a s).getLast? = some M := by
  induction s with
  | nil => simp at h
  | cons b s ih =>
    unfold ordIns
    by_cases hlt : semverLess a b
    · rw [if_pos hlt]
      rw [List.getLast?_cons_cons]
      exact h
    · rw [if_neg hlt]
      cases s with
      | nil =>
        simp only [List.getLast?_singleton, Option.some.injEq] at h
        subst h
        rcases ha with rfl | hless
        · simp [ordIns]
        · exact absurd hless hlt
      | cons c s' =>
        rw [List.getLast?_cons_cons] at h
        have hres := ih h
        obtain ⟨y, ys, hX⟩ := List.exists_cons_of_ne_nil (ordIns_ne_nil a (c :: s'))
        rw [hX] at hres ⊢
        rw [List.getLast?_cons_cons]
        exact hres

/-- Inserting an element not below anything in the list appends it. -/
theorem ordIns_append (s : List SemVer) (a : SemVer)
    (h : ∀ b ∈ s, ¬ semverLess a b) : ordIns a s = s ++ [a] := by
  induction s with
  | nil => simp [ordIns]
  | cons b s ih =>
    unfold ordIns
    rw [if_neg (h b (List.mem_cons_self b s))]
    rw [ih (fun c hc => h c (List.mem_cons_of_mem b hc))]
    simp

/-- The last element of the sorted list is the strict maximum, when one
exists. -/
theorem getLast?_insSort_max (l : List SemVer) (M : SemVer)
    (hM : M ∈ l)
    (hmax : ∀ v ∈ l, v ≠ M → semverLess v M)
    (hnlt : ∀ v ∈ l, ¬ semverLess M v) :
    (insSort l).getLast? = some M := by
  induction l with
  | nil => exact absurd hM (List.not_mem_nil M)
  | cons a l ih =>
    unfold insSort
    by_cases hMl : M ∈ l
    · have hlast : (insSort l).getLast? = some M :=
        ih hMl (fun v hv => hmax v (List.mem_cons_of_mem a hv))
          (fun v hv => hnlt v (List.mem_cons_of_mem a hv))
      have ha : a = M ∨ semverLess a M := by
        by_cases haM : a = M
        · exact Or.inl haM
        · exact Or.inr (hmax a (List.mem_cons_self a l) haM)
      exact getLast?_ordIns_keep _ a M hlast ha
    · have haM : M = a := by
        rcases List.mem_cons.mp hM with h | h
        · exact h
        · exact absurd h hMl
      subst haM
      have hnone : ∀ b ∈ insSort l, ¬ semverLess M b := by
        intro b hb
        exact hnlt b (List.mem_cons_of_mem M ((mem_insSort b l).mp hb))
      rw [ordIns_append _ _ hnone]
      simp

/- ### The `orignalVersions` map -/

theorem buildMap_not_mem (defName : GoString) (P : List Revision)
    (m : GoString → Option GoString) (k : GoString)
    (hk : ∀ r ∈ P, canonStr (revVer defName r) ≠ k) :
    buildMap defName P m k = m k := by
  induction P generalizing m with
  | nil => rfl
  | cons r P ih =>
    unfold buildMap
    rw [List.foldl_cons]
    have : buildMap defName P (mapInsert m (canonStr (revVer defName r)) (revSuffix defName r)) k =
        mapInsert m (canonStr (revVer defName r)) (revSuffix defName r) k :=
      ih _ (fun q hq => hk q (List.mem_cons_of_mem r hq))
    rw [show (List.foldl (fun acc r => mapInsert acc (canonStr (revVer defName r)) (revSuffix defName r))
        (mapInsert m (canonStr (revVer defName r)) (revSuffix defName r)) P) =
        buildMap defName P (mapInsert m (canonStr (revVer defName r)) (revSuffix defName r)) from rfl]
    rw [this]
    unfold mapInsert
    rw [if_neg (fun h => hk r (List.mem_cons_self r P) h.symm)]

/-- With pairwise-distinct canonical keys, looking up a member's canonical
string recovers that member's original suffix. -/
theorem buildMap_lookup (defName : GoString) (P : List Revision)
    (m : GoString → Option GoString) (mhat : Revision) (hm : mhat ∈ P)
    (hdist : P.Pairwise (fun r s => canonStr (revVer defName r) ≠ canonStr (revVer defName s))) :
    buildMap defName P m (canonStr (revVer defName mhat)) = some (revSuffix defName mhat) := by
  induction P generalizing m with
  | nil => exact absurd hm (List.not_mem_nil mhat)
  | cons r P ih =>
    obtain ⟨hhead, htail⟩ := List.pairwise_cons.mp hdist
    unfold buildMap
    rw [List.foldl_cons]
    by_cases hm' : mhat ∈ P
    · exact ih _ hm' htail
    · have hr : mhat = r := by
        rcases List.mem_cons.mp hm with h | h
        · exact h
        · exact absurd h hm'
      subst hr
      rw [show (List.foldl (fun acc r => mapInsert acc (canonStr (revVer defName r)) (revSuffix defName r))
          (mapInsert m (canonStr (revVer defName mhat)) (revSuffix defName mhat)) P) =
          buildMap defName P (mapInsert m (canonStr (revVer defName mhat)) (revSuffix defName mhat)) from rfl]
      rw [buildMap_not_mem defName P _ _ (fun q hq => (hhead q hq).symm)]
      unfold mapInsert
      rw [if_pos rfl]

/-- Under pairwise-distinct images, equal images of members force equal
members. -/
theorem pairwise_mem_eq {α β : Type} (f : α → β) (P : List α)
    (h : P.Pairwise (fun r s => f r ≠ f s)) :
    ∀ r ∈ P, ∀ s ∈ P, f r = f s → r = s := by
  induction P with
  | nil => intro r hr; exact absurd hr (List.not_mem_nil r)
  | cons p P ih =>
    obtain ⟨hhead, htail⟩ := List.pairwise_cons.mp h
    intro r hr s hs hfs
    rcases List.mem_cons.mp hr with rfl | hr' <;> rcases List.mem_cons.mp hs with rfl | hs'
    · rfl
    · exact absurd hfs (hhead s hs')
    · exact absurd hfs.symm (hhead r hr')
    · exact ih htail r hr' s hs' hfs

/-- Main characterisation of the selector on well-formed numeric inputs:
with no exact-name candidate, pairwise-distinct canonical versions, and
`mhat` the strictly largest parsed candidate, the selector returns
`definitionName + "-" + mhat`'s original suffix. -/
theorem selectMax_spec (exact defName typ : GoString) (items : List Revision) (mhat : Revision)
    (hne : ∀ r ∈ items, ¬ skipRev typ r → r.name ≠ exact)
    (hgood : ∀ r ∈ items, prefCand exact typ r = true → numGood defName r)
    (hdist : (prefCands exact typ items).Pairwise
      (fun r s => canonStr (revVer defName r) ≠ canonStr (revVer defName s)))
    (hm : mhat ∈ prefCands exact typ items)
    (hmax : ∀ r ∈ prefCands exact typ items,
      canonStr (revVer defName r) ≠ canonStr (revVer defName mhat) →
      semverLess (revVer defName r) (revVer defName mhat)) :
    getMatchingDefinitionRevision exact defName items typ =
      .ok (defName ++ '-' :: revSuffix defName mhat) := by
  have hgood1 : ∀ r ∈ items, prefCand exact typ r = true → goodRev defName r :=
    fun r hr hp => (hgood r hr hp).1
  have hPgood : ∀ r ∈ prefCands exact typ items, numGood defName r := by
    intro r hr
    have h := List.mem_filter.mp hr
    exact hgood r h.1 h.2
  have hprem := (hPgood mhat hm).2
  unfold getMatchingDefinitionRevision
  rw [gmdrLoop_acc exact defName typ items [] _ hne hgood1]
  have hMem : revVer defName mhat ∈ (prefCands exact typ items).map (revVer defName) :=
    List.mem_map_of_mem _ hm
  have hmax' : ∀ v ∈ (prefCands exact typ items).map (revVer defName),
      v ≠ revVer defName mhat → semverLess v (revVer defName mhat) := by
    intro v hv hvne
    obtain ⟨r, hr, rfl⟩ := List.mem_map.mp hv
    by_cases hc : canonStr (revVer defName r) = canonStr (revVer defName mhat)
    · have : r = mhat :=
        pairwise_mem_eq (fun q => canonStr (revVer defName q)) _ hdist r hr mhat hm hc
      exact absurd (congrArg (revVer defName) this) hvne
    · exact hmax r hr hc
  have hnlt : ∀ v ∈ (prefCands exact typ items).map (revVer defName),
      ¬ semverLess (revVer defName mhat) v := by
    intro v hv
    obtain ⟨r, hr, rfl⟩ := List.mem_map.mp hv
    have hprer := (hPgood r hr).2
    by_cases hc : canonStr (revVer defName r) = canonStr (revVer defName mhat)
    · have : r = mhat :=
        pairwise_mem_eq (fun q => canonStr (revVer defName q)) _ hdist r hr mhat hm hc
      subst this
      rw [semverLess_iff_tripLt _ _ hprem.1 hprer.1]
      exact tripLt_irrefl _
    · have h1 := (semverLess_iff_tripLt _ _ hprer.1 hprem.1).mp (hmax r hr hc)
      rw [semverLess_iff_tripLt _ _ hprem.1 hprer.1]
      exact tripLt_asymm _ _ h1
  have hlast : (insSort ((prefCands exact typ items).map (revVer defName))).getLast? =
      some (revVer defName mhat) :=
    getLast?_insSort_max _ _ hMem hmax' hnlt
  unfold gmdrFinish
  rw [List.nil_append, hlast]
  simp only [buildMap_lookup defName _ (fun _ => none) mhat hm hdist, Option.getD_some]

/-- A non-empty list of well-formed numeric candidates with pairwise
distinct canonical versions has a strictly largest member. -/
theorem exists_max (defName : GoString) (P : List Revision) (hP : P ≠ [])
    (hpre : ∀ r ∈ P, (revVer defName r).pre = [] ∧ (revVer defName r).meta = [])
    (hdist : P.Pairwise (fun r s => canonStr (revVer defName r) ≠ canonStr (revVer defName s))) :
    ∃ mhat ∈ P, ∀ r ∈ P, canonStr (revVer defName r) ≠ canonStr (revVer defName mhat) →
      semverLess (revVer defName r) (revVer defName mhat) := by
  induction P with
  | nil => exact absurd rfl hP
  | cons p P ih =>
    obtain ⟨hhead, htail⟩ := List.pairwise_cons.mp hdist
    by_cases hPnil : P = []
    · subst hPnil
      refine ⟨p, List.mem_cons_self p [], ?_⟩
      intro r hr hc
      rcases List.mem_cons.mp hr with rfl | h
      · exact absurd rfl hc
      · exact absurd h (List.not_mem_nil r)
    · obtain ⟨m', hm', hmax'⟩ :=
        ih hPnil (fun r hr => hpre r (List.mem_cons_of_mem p hr)) htail
      have hprep := hpre p (List.mem_cons_self p P)
      have hprem := hpre m' (List.mem_cons_of_mem p hm')
      by_cases hlt : tripLt (revVer defName p) (revVer defName m')
      · refine ⟨m', List.mem_cons_of_mem p hm', ?_⟩
        intro r hr hc
        rcases List.mem_cons.mp hr with rfl | h
        · exact (semverLess_iff_tripLt _ _ hprep.1 hprem.1).mpr hlt
        · exact hmax' r h hc
      · by_cases heq : revVer defName p = revVer defName m'
        · refine ⟨m', List.mem_cons_of_mem p hm', ?_⟩
          intro r hr hc
          rcases List.mem_cons.mp hr with rfl | h
          · rw [heq] at hc; exact absurd rfl hc
          · exact hmax' r h hc
        · have hlt' : tripLt (revVer defName m') (revVer defName p) := by
            by_contra hno
            exact heq (semver_eq_of_not_tripLt _ _ hprep.1 hprem.1 hprep.2 hprem.2 hlt hno)
          refine ⟨p, List.mem_cons_self p P, ?_⟩
          intro r hr hc
          rcases List.mem_cons.mp hr with rfl | h
          · exact absurd rfl hc
          · have hprer := hpre r (List.mem_cons_of_mem p h)
            by_cases hcm : canonStr (revVer defName r) = canonStr (revVer defName m')
            · have hrm : r = m' :=
                pairwise_mem_eq (fun q => canonStr (revVer defName q)) P htail r h m' hm' hcm
              subst hrm
              exact (semverLess_iff_tripLt _ _ hprer.1 hprep.1).mpr hlt'
            · have h1 := (semverLess_iff_tripLt _ _ hprer.1 hprem.1).mp (hmax' r h hcm)
              exact (semverLess_iff_tripLt _ _ hprer.1 hprep.1).mpr (tripLt_trans _ _ _ h1 hlt')

/-- Candidates whose stored kind differs from a non-empty requested kind
are invisible to the loop: dropping them changes nothing. -/
theorem gmdrLoop_kind_filter (exact defName typ : GoString) (hty : typ ≠ [])
    (items : List Revision) :
    ∀ vers orig, gmdrLoop exact defName typ items vers orig =
      gmdrLoop exact defName typ (items.filter (fun r => decide (r.defType = typ))) vers orig := by
  induction items with
  | nil => intro vers orig; rfl
  | cons r rest ih =>
    intro vers orig
    by_cases hd : r.defType = typ
    · have hsk : ¬ (typ ≠ [] ∧ typ ≠ r.defType) := by
        intro h; exact h.2 hd.symm
      rw [List.filter_cons, if_pos (by simpa using hd)]
      rw [gmdrLoop, gmdrLoop, if_neg hsk, if_neg hsk]
      by_cases hname : r.name = exact
      · rw [if_pos hname, if_pos hname]
      · rw [if_neg hname, if_neg hname]
        by_cases hp : (exact ++ ['.']).isPrefixOf r.name
        · rw [if_pos hp, if_pos hp]
          cases h1 : (goSplit r.name (defName ++ ['-'])).get? 1 with
          | none => simp only [h1]
          | some version =>
            simp only [h1]
            cases h2 : semverNew version with
            | none => simp only [h2]
            | some v =>
              simp only [h2]
              exact ih _ _
        · rw [if_neg hp, if_neg hp]
          exact ih vers orig
    · have hsk : (typ ≠ [] ∧ typ ≠ r.defType) := ⟨hty, fun h => hd h.symm⟩
      rw [List.filter_cons, if_neg (by simpa using hd)]
      rw [gmdrLoop, if_pos hsk]
      exact ih vers orig

/-!
## Claims about the version selector
-/

/-- C1: the claim says a candidate extending the token whose suffix fails
to parse as a semantic version makes selection return an `InvalidVersion`
error, neither skipping it nor crashing.  The code instead records
`orignalVersions[v.String()] = version` before checking the parse error;
`semver.NewVersion` returns a nil version on failure, so `v.String()`
dereferences nil and the routine panics: on the candidate `app-v1.x`
(suffix `v1.x`, which does not parse) with token `app-v1` and base `app`,
selection crashes, and the `return "", err` line is unreachable. -/
theorem C1_invalid_suffix_crashes :
    getMatchingDefinitionRevision "app-v1".toList "app".toList
      [⟨"app-v1.x".toList, "ComponentDefinition".toList⟩]
      "ComponentDefinition".toList = .crash := by
  decide

/-- C2 counterexample: selection is not order-independent.  The candidates
`app-v1.2` and `app-v1.2.0` both extend the token `app-v1` and have the
same canonical parsed version `1.2.0`, so the later one overwrites the
earlier in the `orignalVersions` map and the returned name follows the
input order. -/
theorem C2_perm_counterexample :
    getMatchingDefinitionRevision "app-v1".toList "app".toList
        [⟨"app-v1.2".toList, "T".toList⟩, ⟨"app-v1.2.0".toList, "T".toList⟩] "T".toList =
      .ok "app-v1.2.0".toList ∧
    getMatchingDefinitionRevision "app-v1".toList "app".toList
        [⟨"app-v1.2.0".toList, "T".toList⟩, ⟨"app-v1.2".toList, "T".toList⟩] "T".toList =
      .ok "app-v1.2".toList := by
  decide

/-- C2 (amended): selection is order-independent provided every candidate
reaching the parsing branch has a suffix parsing as a plain numeric
version (no pre-release, no metadata) and no two of them share the same
canonical version string — the counterexample shows the canonical-version
collision is a real exception, and pre-release comparison in the vendored
comparator is not even transitive on strings like `01`. -/
theorem C2_perm_invariant_amended (exact defName typ : GoString)
    (items items' : List Revision) (hperm : items.Perm items')
    (hgood : ∀ r ∈ items, prefCand exact typ r = true → numGood defName r)
    (hdist : (prefCands exact typ items).Pairwise
      (fun r s => canonStr (revVer defName r) ≠ canonStr (revVer defName s))) :
    getMatchingDefinitionRevision exact defName items typ =
      getMatchingDefinitionRevision exact defName items' typ := by
  have hgood' : ∀ r ∈ items', prefCand exact typ r = true → numGood defName r :=
    fun r hr hp => hgood r (hperm.symm.subset hr) hp
  have hgood1 : ∀ r ∈ items, prefCand exact typ r = true → goodRev defName r :=
    fun r hr hp => (hgood r hr hp).1
  have hgood1' : ∀ r ∈ items', prefCand exact typ r = true → goodRev defName r :=
    fun r hr hp => (hgood' r hr hp).1
  have hpermP : (prefCands exact typ items).Perm (prefCands exact typ items') :=
    hperm.filter _
  have hdist' : (prefCands exact typ items').Pairwise
      (fun r s => canonStr (revVer defName r) ≠ canonStr (revVer defName s)) :=
    (hpermP.pairwise_iff (fun h => Ne.symm h)).mp hdist
  by_cases hex : ∃ r ∈ items, ¬ skipRev typ r ∧ r.name = exact
  · obtain ⟨w, hw, hwp⟩ := hex
    have hex' : ∃ r ∈ items', ¬ skipRev typ r ∧ r.name = exact :=
      ⟨w, hperm.subset hw, hwp⟩
    unfold getMatchingDefinitionRevision
    rw [gmdrLoop_exact exact defName typ items _ _ ⟨w, hw, hwp⟩ hgood1,
      gmdrLoop_exact exact defName typ items' _ _ hex' hgood1']
  · push_neg at hex
    have hne : ∀ r ∈ items, ¬ skipRev typ r → r.name ≠ exact := hex
    have hne' : ∀ r ∈ items', ¬ skipRev typ r → r.name ≠ exact :=
      fun r hr => hne r (hperm.symm.subset hr)
    by_cases hP : prefCands exact typ items = []
    · have hP' : prefCands exact typ items' = [] := by
        rw [hP] at hpermP
        exact hpermP.symm.eq_nil
      unfold getMatchingDefinitionRevision
      rw [gmdrLoop_acc exact defName typ items [] _ hne hgood1,
        gmdrLoop_acc exact defName typ items' [] _ hne' hgood1', hP, hP']
    · have hpre : ∀ r ∈ prefCands exact typ items,
          (revVer defName r).pre = [] ∧ (revVer defName r).meta = [] := by
        intro r hr
        have h := List.mem_filter.mp hr
        exact (hgood r h.1 h.2).2
      obtain ⟨mhat, hm, hmax⟩ := exists_max defName _ hP hpre hdist
      rw [selectMax_spec exact defName typ items mhat hne hgood hdist hm hmax,
        selectMax_spec exact defName typ items' mhat hne' hgood' hdist'
          (hpermP.subset hm) (fun r hr hc => hmax r (hpermP.symm.subset hr) hc)]

/-- C2 witness: the amended order-independence applied to a permutation of
two well-formed numeric candidates. -/
theorem C2_perm_invariant_witness :
    getMatchingDefinitionRevision "app-v1".toList "app".toList
        [⟨"app-v1.2.0".toList, "T".toList⟩, ⟨"app-v1.10.0".toList, "T".toList⟩] "T".toList =
      getMatchingDefinitionRevision "app-v1".toList "app".toList
        [⟨"app-v1.10.0".toList, "T".toList⟩, ⟨"app-v1.2.0".toList, "T".toList⟩] "T".toList := by
  exact C2_perm_invariant_amended "app-v1".toList "app".toList "T".toList _ _
    (List.Perm.swap _ _ _) (by decide) (by decide)

/-- C7: a kind-matching candidate whose full name equals the requested
token verbatim is returned, whatever other (well-formed) candidates —
including higher-version extensions of the token — are present. -/
theorem C7_exact_wins (exact defName typ : GoString) (items : List Revision)
    (hex : ∃ r ∈ items, ¬ skipRev typ r ∧ r.name = exact)
    (hgood : ∀ r ∈ items, prefCand exact typ r = true → goodRev defName r) :
    getMatchingDefinitionRevision exact defName items typ = .ok exact := by
  unfold getMatchingDefinitionRevision
  exact gmdrLoop_exact exact defName typ items [] (fun _ => none) hex hgood

/-- C7 witness: the exact candidate `app-v1.2` wins over the later,
higher extension `app-v1.2.9` even though the extension is scanned
first. -/
theorem C7_exact_wins_witness :
    getMatchingDefinitionRevision "app-v1.2".toList "app".toList
      [⟨"app-v1.2.9".toList, "T".toList⟩, ⟨"app-v1.2".toList, "T".toList⟩] "T".toList =
      .ok "app-v1.2".toList :=
  C7_exact_wins "app-v1.2".toList "app".toList "T".toList
    [⟨"app-v1.2.9".toList, "T".toList⟩, ⟨"app-v1.2".toList, "T".toList⟩]
    (by decide) (by decide)

/-- C8: among kind-matching candidates extending the requested token whose
suffixes parse as plain numeric semantic versions with pairwise-distinct
canonical forms, and with no exact-name match present, the selector
returns the candidate with the numerically largest version. -/
theorem C8_max_semver (exact defName typ : GoString) (items : List Revision) (mhat : Revision)
    (hne : ∀ r ∈ items, ¬ skipRev typ r → r.name ≠ exact)
    (hgood : ∀ r ∈ items, prefCand exact typ r = true → numGood defName r)
    (hdist : (prefCands exact typ items).Pairwise
      (fun r s => canonStr (revVer defName r) ≠ canonStr (revVer defName s)))
    (hm : mhat ∈ prefCands exact typ items)
    (hmax : ∀ r ∈ prefCands exact typ items,
      canonStr (revVer defName r) ≠ canonStr (revVer defName mhat) →
      semverLess (revVer defName r) (revVer defName mhat)) :
    getMatchingDefinitionRevision exact defName items typ =
      .ok (defName ++ '-' :: revSuffix defName mhat) :=
  selectMax_spec exact defName typ items mhat hne hgood hdist hm hmax

/-- C8 witness: the spec's own example — candidates `app-v1.0.0`,
`app-v1.2.0`, `app-v1.10.0` under token `app-v1` select `app-v1.10.0`
(numeric, not lexicographic, ordering). -/
theorem C8_max_semver_witness :
    getMatchingDefinitionRevision "app-v1".toList "app".toList
      [⟨"app-v1.0.0".toList, "ComponentDefinition".toList⟩,
       ⟨"app-v1.2.0".toList, "ComponentDefinition".toList⟩,
       ⟨"app-v1.10.0".toList, "ComponentDefinition".toList⟩]
      "ComponentDefinition".toList = .ok "app-v1.10.0".toList := by
  have h := C8_max_semver "app-v1".toList "app".toList "ComponentDefinition".toList
    [⟨"app-v1.0.0".toList, "ComponentDefinition".toList⟩,
     ⟨"app-v1.2.0".toList, "ComponentDefinition".toList⟩,
     ⟨"app-v1.10.0".toList, "ComponentDefinition".toList⟩]
    ⟨"app-v1.10.0".toList, "ComponentDefinition".toList⟩
    (by decide) (by decide) (by decide) (by decide) (by decide)
  rw [h]
  decide

/-- C10: with a non-empty requested kind, candidates whose stored
`DefinitionType` differs are skipped before the exact-name check and
before parsing — selection behaves exactly as on the list with those
candidates removed, so it can neither return nor fail because of them. -/
theorem C10_kind_filter (exact defName typ : GoString) (items : List Revision)
    (hty : typ ≠ []) :
    getMatchingDefinitionRevision exact defName items typ =
      getMatchingDefinitionRevision exact defName
        (items.filter (fun r => decide (r.defType = typ))) typ := by
  unfold getMatchingDefinitionRevision
  exact gmdrLoop_kind_filter exact defName typ hty items [] (fun _ => none)

/-- C10 witness: a wrong-kind candidate named exactly like the token, and a
wrong-kind candidate with a malformed suffix, both leave selection
unaffected. -/
theorem C10_kind_filter_witness :
    getMatchingDefinitionRevision "app-v1".toList "app".toList
      [⟨"app-v1".toList, "TraitDefinition".toList⟩,
       ⟨"app-v1.x".toList, "TraitDefinition".toList⟩,
       ⟨"app-v1.2.0".toList, "ComponentDefinition".toList⟩]
      "ComponentDefinition".toList =
    getMatchingDefinitionRevision "app-v1".toList "app".toList
      (([⟨"app-v1".toList, "TraitDefinition".toList⟩,
         ⟨"app-v1.x".toList, "TraitDefinition".toList⟩,
         ⟨"app-v1.2.0".toList, "ComponentDefinition".toList⟩] : List Revision).filter
        (fun r => decide (r.defType = "ComponentDefinition".toList)))
      "ComponentDefinition".toList :=
  C10_kind_filter "app-v1".toList "app".toList "ComponentDefinition".toList
    [⟨"app-v1".toList, "TraitDefinition".toList⟩,
     ⟨"app-v1.x".toList, "TraitDefinition".toList⟩,
     ⟨"app-v1.2.0".toList, "ComponentDefinition".toList⟩]
    (by decide)

/-!
## Claims about the two-tier fetch and the latest-lookup
-/

/-- C3 counterexample: when the lookup fails in all three namespaces,
`GetDefinition` returns the error of the last (system-namespace) attempt,
not the first (application-namespace) one: the loop variable `err` is
re-assigned on every iteration and the final `return err` sees its last
value. -/
theorem C3_first_error_counterexample :
    cliC3.get "app-ns".toList "w".toList = .error ⟨true, "nf-app".toList⟩ ∧
    GetDefinition ⟨some "app-ns".toList, some "x-ns".toList⟩ cliC3 "w".toList =
      .error ⟨true, "nf-sys".toList⟩ ∧
    (⟨true, "nf-sys".toList⟩ : GoErr) ≠ ⟨true, "nf-app".toList⟩ := by
  decide

/-- C3 (amended): when the application-namespace lookup and both
fallback-namespace lookups all fail with not-found, `GetDefinition`
returns the last error encountered — the system-namespace attempt's
error — not the first. -/
theorem C3_last_error_amended (ctx : Ctx) (cli : StoreCli) (nm : GoString)
    (e1 e2 e3 : GoErr)
    (h1 : cli.get (GetDefinitionNamespaceWithCtx ctx) nm = .error e1)
    (h1n : e1.isNotFound = true)
    (h2 : GetDefinitionFromNamespace cli nm (GetXDefinitionNamespaceWithCtx ctx) = .error e2)
    (h2n : e2.isNotFound = true)
    (h3 : GetDefinitionFromNamespace cli nm SystemDefinitionNamespace = .error e3)
    (h3n : e3.isNotFound = true) :
    GetDefinition ctx cli nm = .error e3 := by
  unfold GetDefinition
  simp only [h1, h1n, if_true]
  unfold getDefinitionLoop
  simp only [h2, h2n, if_true]
  unfold getDefinitionLoop
  simp only [h3, h3n, if_true]
  rfl

/-- C3 witness: the amended last-error behaviour on the counterexample
store. -/
theorem C3_last_error_witness :
    GetDefinition ⟨some "app-ns".toList, some "x-ns".toList⟩ cliC3 "w".toList =
      .error ⟨true, "nf-sys".toList⟩ :=
  C3_last_error_amended ⟨some "app-ns".toList, some "x-ns".toList⟩ cliC3 "w".toList
    ⟨true, "nf-app".toList⟩ ⟨true, "nf-x".toList⟩ ⟨true, "nf-sys".toList⟩
    (by decide) rfl (by decide) rfl (by decide) rfl

/-- C4: the latest-lookup neither returns the selection failure as an error
nor falls through to the next namespace: it crashes. -/
theorem C4_selection_failure_crashes :
    GetLatestDefinitionRevisionName ⟨some "app-ns".toList, none⟩ cliC4
      "app".toList "app-v1".toList "ComponentDefinition".toList = .crash := by
  decide

/-- C6 counterexample: the first (application-namespace) attempt of the
two-tier lookup does NOT retry with no namespace on not-found — although
the cluster-scoped copy exists and a retry would have surfaced it, the
lookup falls through to the next namespace and returns its error. -/
theorem C6_first_tier_counterexample :
    cliC6.get "app-ns".toList "w".toList = .error ⟨true, "nf-app".toList⟩ ∧
    cliC6.get [] "w".toList = .ok ⟨"w".toList, "ComponentDefinition".toList⟩ ∧
    GetDefinition ⟨some "app-ns".toList, some "x-ns".toList⟩ cliC6 "w".toList =
      .error ⟨false, "boom".toList⟩ := by
  decide

/-- C6 (amended): only the attempts made through
`GetDefinitionFromNamespace` — the x-definition-namespace and
system-namespace tiers — retry once with no namespace on not-found; there
the claimed behaviour holds exactly: if the retry fails with the
request-namespace validation error the original not-found error is
returned, and any other retry outcome (success or other error) is
surfaced.  The initial application-namespace attempt of `GetDefinition`
does not retry (see the counterexample). -/
theorem C6_retry_amended (cli : StoreCli) (nm ns : GoString) (e : GoErr)
    (h : cli.get ns nm = .error e) (hn : e.isNotFound = true) :
    GetDefinitionFromNamespace cli nm ns =
      (match cli.get [] nm with
       | .ok o => .ok o
       | .error n =>
         if checkRequestNamespaceError n then .error e else .error n) := by
  unfold GetDefinitionFromNamespace
  simp only [h, hn, if_true]

/-- C6 witness: the retry semantics applied where the namespaced get is
not-found and the cluster-scoped retry succeeds. -/
theorem C6_retry_witness :
    GetDefinitionFromNamespace cliC6 "w".toList "app-ns".toList =
      .ok ⟨"w".toList, "ComponentDefinition".toList⟩ := by
  have h := C6_retry_amended cliC6 "w".toList "app-ns".toList
    ⟨true, "nf-app".toList⟩ (by decide) rfl
  rw [h]
  decide

/-!
## Claims about auto-update resolution
-/

/-- C5 counterexample: with auto-update `"true"`, the pin `app@v1.2.3` is
NOT re-resolved to the newest compatible revision: the latest-lookup is
invoked with the full converted token `app-v1.2.3`, the exact-name match
wins, and the originally pinned revision is returned even though
`app-v1.2.9` is stored. -/
theorem C5_exact_pin_counterexample :
    cliC5.list "app-ns".toList (defKindLabel "ComponentDefinition".toList) "app".toList =
      .ok [⟨"app-v1.2.3".toList, "ComponentDefinition".toList⟩,
           ⟨"app-v1.2.9".toList, "ComponentDefinition".toList⟩] ∧
    annC5 AnnotationAutoUpdate = some "true".toList ∧
    fetchDefinitionRevision ⟨some "app-ns".toList, none⟩ cliC5 "app@v1.2.3".toList
      "ComponentDefinition".toList annC5 =
      .ok (false, some ⟨"app-v1.2.3".toList, "ComponentDefinition".toList⟩) := by
  decide

/-- C5 (amended): with auto-update `"true"`, the resolver re-resolves
through the latest-lookup using the FULL converted revision token, not a
version prefix with the pinned minor/patch stripped.  Consequently, when a
kind-matching stored revision is named exactly like the converted token
(and is fetchable in the application namespace), the resolver returns that
pinned revision itself; only a partially pinned reference (for example
`name@v1.2`), whose stored revisions strictly extend the token by a
further dot-component, resolves to the newest matching revision. -/
theorem C5_autoupdate_amended (ctx : Ctx) (cli : StoreCli)
    (definitionName definitionType drn : GoString)
    (ann : GoString → Option GoString) (items : List Revision) (rev : Revision)
    (hc : definitionName.contains '@' = true)
    (hconv : ConvertDefinitionRevName definitionName = .ok drn)
    (hdrn : drn ≠ [])
    (hann : ann AnnotationAutoUpdate = some "true".toList)
    (hlist : cli.list (GetDefinitionNamespaceWithCtx ctx) (defKindLabel definitionType)
        ((goSplit definitionName ['@']).headI) = .ok items)
    (hex : ∃ r ∈ items, ¬ skipRev definitionType r ∧ r.name = drn)
    (hgood : ∀ r ∈ items, prefCand drn definitionType r = true →
        goodRev ((goSplit definitionName ['@']).headI) r)
    (hget : cli.get (GetDefinitionNamespaceWithCtx ctx) drn = .ok rev) :
    fetchDefinitionRevision ctx cli definitionName definitionType ann =
      .ok (false, some rev) := by
  have hsel : getMatchingDefinitionRevision drn ((goSplit definitionName ['@']).headI)
      items definitionType = .ok drn := by
    unfold getMatchingDefinitionRevision
    exact gmdrLoop_exact _ _ _ items [] (fun _ => none) hex hgood
  have hlatest : GetLatestDefinitionRevisionName ctx cli
      ((goSplit definitionName ['@']).headI) drn definitionType = .ok drn := by
    unfold GetLatestDefinitionRevisionName getLatestLoop fetchAllRevisionsForDefinitionName
    simp only [hlist, hsel]
    simp [hdrn]
  have hgd : GetDefinition ctx cli drn = .ok rev := by
    unfold GetDefinition
    simp only [hget]
  unfold fetchDefinitionRevision
  simp only [hc, Bool.not_true, Bool.false_eq_true, if_false, hconv, hann, hlatest, hgd,
    if_pos rfl]
  simp [hgd]

/-- C5 witness: the amended behaviour applied to the concrete store —
auto-update on, full pin `app@v1.2.3`, exact revision present, pinned
revision returned. -/
theorem C5_autoupdate_witness :
    fetchDefinitionRevision ⟨some "app-ns".toList, none⟩ cliC5 "app@v1.2.3".toList
      "ComponentDefinition".toList annC5 =
      .ok (false, some ⟨"app-v1.2.3".toList, "ComponentDefinition".toList⟩) :=
  C5_autoupdate_amended ⟨some "app-ns".toList, none⟩ cliC5 "app@v1.2.3".toList
    "ComponentDefinition".toList "app-v1.2.3".toList annC5
    [⟨"app-v1.2.3".toList, "ComponentDefinition".toList⟩,
     ⟨"app-v1.2.9".toList, "ComponentDefinition".toList⟩]
    ⟨"app-v1.2.3".toList, "ComponentDefinition".toList⟩
    (by decide) (by decide) (by decide) (by decide) (by decide) (by decide)
    (by decide) (by decide)

/-!
## Claims about reference parsing (`ConvertDefinitionRevName`)
-/

/-- Unfolding of the scan on the empty string, for any fuel. -/
theorem splitLoopF_nil (sep : GoString) (f : Nat) (cur : List Char) :
    splitLoopF sep f [] cur = [cur.reverse] := by
  cases f <;> rfl

/-- Unfolding of the scan on a non-empty string with non-zero fuel. -/
theorem splitLoopF_cons (sep : GoString) (f : Nat) (c : Char) (rest cur : List Char) :
    splitLoopF sep (f + 1) (c :: rest) cur =
      if sep.isPrefixOf (c :: rest) then
        cur.reverse :: splitLoopF sep f (List.drop (sep.length - 1) rest) []
      else splitLoopF sep f rest (c :: cur) := rfl

/-- Any fuel of at least the scanned string's length gives the same split. -/
theorem splitLoopF_fuel (sep : GoString) :
    ∀ f1 f2 s cur, s.length ≤ f1 → s.length ≤ f2 →
      splitLoopF sep f1 s cur = splitLoopF sep f2 s cur := by
  intro f1
  induction f1 with
  | zero =>
    intro f2 s cur h1 _
    cases s with
    | nil => rw [splitLoopF_nil, splitLoopF_nil]
    | cons c rest => simp at h1
  | succ f1' ih =>
    intro f2 s cur h1 h2
    cases s with
    | nil => rw [splitLoopF_nil, splitLoopF_nil]
    | cons c rest =>
      cases f2 with
      | zero => simp at h2
      | succ f2' =>
        rw [splitLoopF_cons, splitLoopF_cons]
        simp only [List.length_cons] at h1 h2
        by_cases hp : sep.isPrefixOf (c :: rest) = true
        · rw [if_pos hp, if_pos hp]
          have hd : (List.drop (sep.length - 1) rest).length ≤ f1' := by
            simp only [List.length_drop]; omega
          have hd2 : (List.drop (sep.length - 1) rest).length ≤ f2' := by
            simp only [List.length_drop]; omega
          rw [ih f2' _ [] hd hd2]
        · rw [if_neg hp, if_neg hp]
          exact ih f2' rest (c :: cur) (by omega) (by omega)

/-- The split never produces an empty list. -/
theorem splitLoopF_ne_nil (sep : GoString) :
    ∀ f s cur, splitLoopF sep f s cur ≠ [] := by
  intro f
  induction f with
  | zero =>
    intro s cur
    cases s <;> simp [splitLoopF_nil, splitLoopF]
  | succ f' ih =>
    intro s cur
    cases s with
    | nil => simp [splitLoopF_nil]
    | cons c rest =>
      rw [splitLoopF_cons]
      by_cases hp : sep.isPrefixOf (c :: rest) = true
      · simp [hp]
      · rw [if_neg hp]
        exact ih rest (c :: cur)

theorem goSplit_ne_nil (s sep : GoString) : goSplit s sep ≠ [] :=
  splitLoopF_ne_nil sep s.length s []

theorem isPrefixOf_append_self (l t : GoString) : l.isPrefixOf (l ++ t) = true := by
  induction l with
  | nil => simp [List.isPrefixOf]
  | cons a l ih => simp [List.isPrefixOf, ih]

/-- A string free of the separator's first character is never split. -/
theorem splitLoopF_no_occ (c0 : Char) (sep' : GoString) (s : GoString) :
    ∀ f cur, c0 ∉ s → splitLoopF (c0 :: sep') f s cur = [cur.reverse ++ s] := by
  induction s with
  | nil => intro f cur _; simp [splitLoopF_nil]
  | cons c rest ih =>
    intro f cur hno
    have hc : c ≠ c0 := fun h => hno (h ▸ List.mem_cons_self c rest)
    cases f with
    | zero => rfl
    | succ f' =>
      have hp : (c0 :: sep').isPrefixOf (c :: rest) = false := by
        simp only [List.isPrefixOf, Bool.and_eq_false_iff]
        exact Or.inl (by simpa using fun h => hc h.symm)
      rw [splitLoopF_cons, if_neg (by simp [hp])]
      rw [ih f' (c :: cur) (fun h => hno (List.mem_cons_of_mem c h))]
      simp

/-- Splitting at the first separator occurrence: with the separator's first
character absent from `name`, the scan returns `name` and recurses on the
part after the separator. -/
theorem splitLoopF_boundary (c0 : Char) (sep' name tail : GoString) :
    ∀ f cur, c0 ∉ name → name.length + 1 + sep'.length + tail.length ≤ f →
      splitLoopF (c0 :: sep') f (name ++ c0 :: (sep' ++ tail)) cur =
        (cur.reverse ++ name) :: splitLoopF (c0 :: sep') tail.length tail [] := by
  induction name with
  | nil =>
    intro f cur _ hf
    simp only [List.length_nil, List.nil_append] at hf ⊢
    cases f with
    | zero => omega
    | succ f' =>
      have hp : (c0 :: sep').isPrefixOf (c0 :: (sep' ++ tail)) = true := by
        simp [List.isPrefixOf, isPrefixOf_append_self]
      rw [splitLoopF_cons, if_pos hp]
      have hdrop : List.drop ((c0 :: sep').length - 1) (sep' ++ tail) = tail := by
        simp [List.drop_left]
      rw [hdrop]
      rw [splitLoopF_fuel (c0 :: sep') f' tail.length tail [] (by omega) (le_refl _)]
      simp
  | cons c name' ih =>
    intro f cur hno hf
    have hc : c ≠ c0 := fun h => hno (h ▸ List.mem_cons_self c name')
    have hno' : c0 ∉ name' := fun h => hno (List.mem_cons_of_mem c h)
    simp only [List.length_cons] at hf
    cases f with
    | zero => omega
    | succ f' =>
      have hp : (c0 :: sep').isPrefixOf (c :: (name' ++ c0 :: (sep' ++ tail))) = false := by
        simp only [List.isPrefixOf, Bool.and_eq_false_iff]
        exact Or.inl (by simpa using fun h => hc h.symm)
      rw [List.cons_append, splitLoopF_cons, if_neg (by simp [hp])]
      rw [ih f' (c :: cur) hno' (by omega)]
      simp

theorem goSplit_boundary (c0 : Char) (sep' name tail : GoString) (hno : c0 ∉ name) :
    goSplit (name ++ c0 :: (sep' ++ tail)) (c0 :: sep') =
      name :: goSplit tail (c0 :: sep') := by
  unfold goSplit
  rw [splitLoopF_boundary c0 sep' name tail _ [] hno
    (by simp [List.length_append]; omega)]
  simp

/-- C9: conversion of capability references to revision names.  (1) A
reference `name@vX.Y.Z` with a non-empty, `@`-free left-hand side whose
constructed revision name passes resource-name validation maps to
`name-vX.Y.Z`.  (2) An input with no `@v` separator is returned unchanged
when valid, and fails with the invalid-name error otherwise.  (3) An input
whose `@v` separator has an empty left-hand side is handled by the same
direct-name path — never as an error by itself. -/
theorem C9_convert_rev_name :
    (∀ name ver : GoString, name ≠ [] → '@' ∉ name →
      IsQualifiedName (name ++ '-' :: 'v' :: ver) = [] →
      ConvertDefinitionRevName (name ++ '@' :: 'v' :: ver) =
        .ok (name ++ '-' :: 'v' :: ver)) ∧
    (∀ s : GoString, (goSplit s ('@' :: ['v'])).length = 1 →
      ConvertDefinitionRevName s =
        (if (IsQualifiedName s).length ≠ 0 then
          .error (invalidNameErr s (IsQualifiedName s)) else .ok s)) ∧
    (∀ rest : GoString,
      ConvertDefinitionRevName ('@' :: 'v' :: rest) =
        (if (IsQualifiedName ('@' :: 'v' :: rest)).length ≠ 0 then
          .error (invalidNameErr ('@' :: 'v' :: rest)
            (IsQualifiedName ('@' :: 'v' :: rest)))
        else .ok ('@' :: 'v' :: rest))) := by
  refine ⟨?_, ?_, ?_⟩
  · intro name ver hne hno hval
    have hsplit : goSplit (name ++ '@' :: 'v' :: ver) ('@' :: ['v']) =
        name :: goSplit ver ('@' :: ['v']) := by
      have h := goSplit_boundary '@' ['v'] name ver hno
      simpa using h
    have hLnil : goSplit ver ('@' :: ['v']) ≠ [] := goSplit_ne_nil ver _
    have hcond : ¬ ((goSplit (name ++ '@' :: 'v' :: ver) ('@' :: ['v'])).length = 1 ∨
        (goSplit (name ++ '@' :: 'v' :: ver) ('@' :: ['v'])).headI.length = 0) := by
      rw [hsplit]
      push_neg
      refine ⟨?_, ?_⟩
      · simp only [List.length_cons]
        intro h
        exact hLnil (List.length_eq_zero.mp (by omega))
      · simp only [List.headI_cons]
        intro h
        exact hne (List.length_eq_zero.mp h)
    have htrim : trimPrefixGo (name ++ '@' :: ['v']) (name ++ '@' :: 'v' :: ver) = ver := by
      unfold trimPrefixGo
      have heq : name ++ '@' :: 'v' :: ver = (name ++ '@' :: ['v']) ++ ver := by simp
      rw [heq, if_pos (isPrefixOf_append_self (name ++ '@' :: ['v']) ver)]
      exact List.drop_left _ _
    simp only [ConvertDefinitionRevName]
    rw [if_neg hcond, hsplit]
    simp only [List.headI_cons]
    rw [htrim, hval]
    simp
  · intro s h1
    simp only [ConvertDefinitionRevName]
    rw [if_pos (Or.inl h1)]
  · intro rest
    have hsplit : goSplit ('@' :: 'v' :: rest) ('@' :: ['v']) =
        [] :: goSplit rest ('@' :: ['v']) := by
      have h := goSplit_boundary '@' ['v'] [] rest (by simp)
      simpa using h
    simp only [ConvertDefinitionRevName]
    rw [if_pos (Or.inr (by rw [hsplit]; simp))]

/-- C9 witness: `worker@v1.3.1` converts to `worker-v1.3.1`. -/
theorem C9_convert_rev_name_witness :
    ConvertDefinitionRevName "worker@v1.3.1".toList = .ok "worker-v1.3.1".toList := by
  have h := C9_convert_rev_name.1 "worker".toList "1.3.1".toList
    (by decide) (by decide) (by decide)
  exact h
